import Mathlib

/-!
Shallow embedding of the GBWT support structures (`src/support.cpp`,
`src/utils.h`, `src/dynamic_gbwt.h`) and proofs about them.

Machine integers: `size_type` is `uint64_t` and the memory-saving pair
types (`run_type`, `edge_type`, `sample_type`) use `uint32_t` fields
(`GBWT_SAVE_MEMORY` in `utils.h`).  Values are modelled as `Nat`；
subtraction is truncated `Nat` subtraction, which agrees with the unsigned
machine subtraction everywhere the values cannot underflow (shown where a
claim needs it).  The one place where 64-bit wraparound is semantically
relevant — `Range::empty`, which relies on `invalid_offset() + 1` wrapping
to 0 — is modelled with an explicit `% 2^64`.
-/

namespace GBWT

/-- The modulus of a 64-bit word, used where `uint64_t` wraparound matters. -/
def U64 : Nat := 2 ^ 64

/-- ENDMARKER node id (utils.h line 92). -/
def ENDMARKER : Nat := 0

/-- invalid_sequence() `= ~(size_type)0` (utils.h line 94). -/
def invalid_sequence : Nat := U64 - 1

/-- invalid_offset() `= ~(size_type)0` (utils.h line 95). -/
def invalid_offset : Nat := U64 - 1

/-- invalid_edge() `= (ENDMARKER, invalid_offset())` (utils.h line 96). -/
def invalid_edge : Nat × Nat := (ENDMARKER, invalid_offset)

namespace Range

/-- Range::empty(sp, ep) `= (sp + 1 > ep + 1)` in `uint64_t` arithmetic
(utils.h lines 125-128); the additions wrap at `2^64`. -/
def emptyFS (sp ep : Nat) : Bool := decide ((ep + 1) % U64 < (sp + 1) % U64)

/-- Range::empty(range) for a pair (utils.h lines 120-123). -/
def empty (r : Nat × Nat) : Bool := emptyFS r.1 r.2

/-- Range::empty_range() `= (1, 0)` (utils.h lines 140-143). -/
def empty_range : Nat × Nat := (1, 0)

end Range

/-!
DynamicRecord (declared in the missing `support.h`, methods in
`src/support.cpp`).  The trivial accessors `size`, `outdegree`,
`successor`, `offsetAt` are modelled from the spec ("trivial accessors";
`successor(r)`, `offset(r)` extract from `outgoing[r]`, spec section 4.3).
-/

/-- DynamicRecord: the per-node mutable BWT record (spec section 3;
fields as swapped in `DynamicRecord::swap`, support.cpp lines 39-50). -/
structure DynamicRecord where
  body_size : Nat
  incoming : List (Nat × Nat)
  outgoing : List (Nat × Nat)
  body : List (Nat × Nat)
  ids : List (Nat × Nat)
deriving Repr, DecidableEq, Inhabited

/-- Successor node of out-rank `rk`: `outgoing[rk].first`.  Modelled from
the spec: the accessor `successor(r)` lives in the missing `support.h`. -/
def successorOf (out : List (Nat × Nat)) (rk : Nat) : Nat := (out.getD rk (0, 0)).1

/-- LF base of out-rank `rk`: `outgoing[rk].second`.  Modelled from the
spec: the accessor `offset(r)` lives in the missing `support.h`. -/
def offsetOf (out : List (Nat × Nat)) (rk : Nat) : Nat := (out.getD rk (0, 0)).2

/-- DynamicRecord::edgeTo (support.cpp lines 165-173): index of the first
outgoing edge whose successor is `to`, or `outdegree()` when missing. -/
def edgeToOf (out : List (Nat × Nat)) (tgt : Nat) : Nat := out.findIdx (fun e => e.1 == tgt)

namespace DynamicRecord

/-- size(): `body_size`.  Modelled from the spec ("trivial accessors"). -/
def size (r : DynamicRecord) : Nat := r.body_size

/-- outdegree(): `outgoing.size()`.  Modelled from the spec. -/
def outdegree (r : DynamicRecord) : Nat := r.outgoing.length

/-- successor(rk) accessor on a record. -/
def successor (r : DynamicRecord) (rk : Nat) : Nat := successorOf r.outgoing rk

/-- offset(rk) accessor on a record. -/
def offsetAt (r : DynamicRecord) (rk : Nat) : Nat := offsetOf r.outgoing rk

/-- edgeTo(to) on a record (support.cpp lines 165-173). -/
def edgeTo (r : DynamicRecord) (tgt : Nat) : Nat := edgeToOf r.outgoing tgt

end DynamicRecord

/-- Sum of the run lengths of a body (`run.second` over the body). -/
def sumLens (body : List (Nat × Nat)) : Nat := body.foldr (fun run a => run.2 + a) 0

/-- Total length of the runs of `body` whose out-rank is `rk`. -/
def totalRank (rk : Nat) (body : List (Nat × Nat)) : Nat :=
  sumLens (body.filter (fun run => run.1 == rk))

/-- The body decoded to one out-rank per BWT position. -/
def decodeBody (body : List (Nat × Nat)) : List Nat :=
  body.foldr (fun run a => List.replicate run.2 run.1 ++ a) []

/-- `result[k].second += v` on the local copy of `outgoing` used by
`DynamicRecord::LF` (support.cpp line 84). -/
def bump : List (Nat × Nat) → Nat → Nat → List (Nat × Nat)
  | [], _, _ => []
  | p :: rest, 0, v => (p.1, p.2 + v) :: rest
  | p :: rest, k + 1, v => p :: bump rest k v

/-- The loop of `DynamicRecord::LF(i)` (support.cpp lines 81-87): walk the
runs, adding each length to the accumulator entry of its out-rank, and
break at the first run whose cumulative end exceeds `i`.  Returns the
accumulator, `last_edge` and the cumulative offset at exit. -/
def lfLoop (i : Nat) : List (Nat × Nat) → List (Nat × Nat) → Nat → Nat →
    List (Nat × Nat) × Nat × Nat
  | [], result, last_edge, off => (result, last_edge, off)
  | run :: rest, result, _, off =>
    let result' := bump result run.1 run.2
    let off' := off + run.2
    if i < off' then (result', run.1, off')
    else lfLoop i rest result' run.1 off'

/-- DynamicRecord::LF(i) (support.cpp lines 73-91). -/
def DynamicRecord.LF (r : DynamicRecord) (i : Nat) : Nat × Nat :=
  if r.size ≤ i then invalid_edge
  else
    let out := lfLoop i r.body r.outgoing 0 0
    let e := out.1.getD out.2.1 (0, 0)
    (e.1, e.2 - (out.2.2 - i))

/-- The loop of `DynamicRecord::LF(i, to)` (support.cpp lines 100-109):
accumulate only the lengths of runs with the requested out-rank and break
at the first run whose cumulative end reaches `i`, subtracting the
overshoot when that run matches. -/
def lfToLoop (outrank i : Nat) : List (Nat × Nat) → Nat → Nat → Nat
  | [], result, _ => result
  | run :: rest, result, off =>
    let result' := if run.1 = outrank then result + run.2 else result
    let off' := off + run.2
    if i ≤ off' then (if run.1 = outrank then result' - (off' - i) else result')
    else lfToLoop outrank i rest result' off'

/-- DynamicRecord::LF(i, to) (support.cpp lines 93-111). -/
def DynamicRecord.LFto (r : DynamicRecord) (i tgt : Nat) : Nat :=
  let outrank := r.edgeTo tgt
  if r.outdegree ≤ outrank then invalid_offset
  else lfToLoop outrank i r.body (r.offsetAt outrank) 0

/-- One `while` loop of `DynamicRecord::LF(range, to)` (support.cpp lines
125-132 and 135-142): the state is the list of runs after the iterator,
the current run, the per-target accumulator, the cumulative offset, and
whether the iterator has reached `body.end()`. -/
def rangeLoop (outrank target : Nat) :
    List (Nat × Nat) → Nat × Nat → Nat → Nat → Bool →
    List (Nat × Nat) × (Nat × Nat) × Nat × Nat × Bool
  | rest, run, result, off, true => (rest, run, result, off, true)
  | rest, run, result, off, false =>
    if target ≤ off then (rest, run, result, off, false)
    else
      match rest with
      | [] => ([], run, result, off, true)
      | r' :: rest' =>
        rangeLoop outrank target rest' r'
          (result + if r'.1 = outrank then r'.2 else 0) (off + r'.2) false

/-- DynamicRecord::LF(range, to) (support.cpp lines 113-146).  The C++
dereferences `body.begin()` before checking that the body is non-empty;
the embedding returns `none` exactly on that out-of-bounds access. -/
def DynamicRecord.LFrange (r : DynamicRecord) (range : Nat × Nat) (tgt : Nat) :
    Option (Nat × Nat) :=
  if Range.empty range then some Range.empty_range
  else
    let outrank := r.edgeTo tgt
    if r.outdegree ≤ outrank then some Range.empty_range
    else
      match r.body with
      | [] => none
      | run0 :: rest0 =>
        let result0 := r.offsetAt outrank + (if run0.1 = outrank then run0.2 else 0)
        let s1 := rangeLoop outrank range.1 rest0 run0 result0 run0.2 false
        let first' := s1.2.2.1 - (if s1.2.1.1 = outrank then s1.2.2.2.1 - range.1 else 0)
        let s2 := rangeLoop outrank range.2 s1.1 s1.2.1 s1.2.2.1 s1.2.2.2.1 s1.2.2.2.2
        let second' := s2.2.2.1 - (if s2.2.1.1 = outrank then s2.2.2.2.1 - range.2 else 0)
        some (first', second')

/-- The loop of `DynamicRecord::operator[]` (support.cpp lines 153-158):
successor of the run covering position `i`, `ENDMARKER` if uncovered. -/
def opLoop (out : List (Nat × Nat)) (i : Nat) : List (Nat × Nat) → Nat → Nat
  | [], _ => ENDMARKER
  | run :: rest, off =>
    if i < off + run.2 then successorOf out run.1 else opLoop out i rest (off + run.2)

/-- DynamicRecord::operator[](i) (support.cpp lines 148-161). -/
def DynamicRecord.elemAt (r : DynamicRecord) (i : Nat) : Nat :=
  if r.size ≤ i then ENDMARKER else opLoop r.outgoing i r.body 0

/-- The sortedness check of `DynamicRecord::recode` (support.cpp lines
59-63): scan adjacent outgoing edges for a successor decrease. -/
def sortedChk : List (Nat × Nat) → Bool
  | [] => true
  | [_] => true
  | a :: b :: rest => if b.1 < a.1 then false else sortedChk (b :: rest)

/-- The lexicographic order on pairs used by `std::sort` on
`std::pair<short_type, short_type>` (sequentialSort, support.cpp line 67). -/
def lexLe (a b : Nat × Nat) : Prop := a.1 < b.1 ∨ (a.1 = b.1 ∧ a.2 ≤ b.2)

instance : DecidableRel lexLe := fun a b => by
  unfold lexLe; exact instDecidableOr

instance : IsTotal (Nat × Nat) lexLe := by
  constructor; intro a b; unfold lexLe; omega

instance : IsTrans (Nat × Nat) lexLe := by
  constructor; intro a b c; unfold lexLe; omega

/-- DynamicRecord::recode (support.cpp lines 54-69). -/
def DynamicRecord.recode (r : DynamicRecord) : DynamicRecord :=
  if r.size = 0 then r
  else if sortedChk r.outgoing then r
  else
    let body1 := r.body.map (fun run => (r.successor run.1, run.2))
    let out2 := List.insertionSort lexLe r.outgoing
    let body2 := body1.map (fun run => (edgeToOf out2 run.1, run.2))
    { r with outgoing := out2, body := body2 }

/-!
DynamicGBWT (`src/dynamic_gbwt.h`): only the parts the claims need.
-/

/-- GBWTHeader scalar fields (spec section 3, "Header"). -/
structure GBWTHeader where
  size : Nat
  sequences : Nat
  alphabet_size : Nat
  offset : Nat
deriving Repr, DecidableEq, Inhabited

/-- DynamicGBWT: header plus the vector of records (dynamic_gbwt.h lines
167-168). -/
structure DynamicGBWT where
  header : GBWTHeader
  bwt : List DynamicRecord
deriving Repr, Inhabited

/-- sigma(): `header.alphabet_size` (dynamic_gbwt.h line 93). -/
def DynamicGBWT.sigma (g : DynamicGBWT) : Nat := g.header.alphabet_size

/-- DynamicGBWT::contains (dynamic_gbwt.h lines 97-100):
`(node < sigma() && node > header.offset) || node == 0`. -/
def DynamicGBWT.contains (g : DynamicGBWT) (node : Nat) : Bool :=
  (decide (node < g.sigma) && decide (g.header.offset < node)) || (node == 0)

/-- The pair promised by the claim for `DynamicRecord::LF(i)`: successor
and LF base of the out-rank covering position `i`, plus the number of
earlier body positions with that out-rank.  Transcribed from the claim,
to be compared with the embedding `DynamicRecord.LF`. -/
def lfSpecC1 (r : DynamicRecord) (i : Nat) : Nat × Nat :=
  let ranks := decodeBody r.body
  let rk := ranks.getD i 0
  (r.successor rk, r.offsetAt rk + (ranks.take i).count rk)

/-!
DASamples (support.cpp lines 461-646).  The sdsl bitvectors are modelled
by their semantic content: a dense `bit_vector` as a `List Bool`, and a
sparse `sd_vector` as its domain size together with the list of set
positions, which is exactly what `sd_vector_builder` receives (the
builder requires the `set` calls to come in strictly increasing order, so
the position list of a built vector is increasing).  `rank(p)` counts the
set positions below `p`, `select(k)` is the k-th set position (1-based),
and bit access is membership.
-/

/-- A sparse sdsl bitvector as content: domain size and set positions. -/
structure SDVector where
  size : Nat
  ones : List Nat
deriving Repr, DecidableEq, Inhabited

/-- rank(p) on a sparse vector: number of set positions below `p`. -/
def SDVector.rank (v : SDVector) (p : Nat) : Nat :=
  v.ones.countP (fun q => decide (q < p))

/-- Bit access on a sparse vector: is position `p` set. -/
def SDVector.bitAt (v : SDVector) (p : Nat) : Bool := decide (p ∈ v.ones)

/-- select(k) on a sparse vector built from increasing positions: the
k-th set position, 1-based. -/
def SDVector.selectAt (v : SDVector) (k : Nat) : Nat := v.ones.getD (k - 1) 0

/-- rank(i) on a dense bitvector: number of set bits below `i`. -/
def rank1 (bits : List Bool) (i : Nat) : Nat := (bits.take i).count true

/-- samples(): `ids.size()`.  Modelled from the spec ("trivial
accessors"); a record is sampled when it has at least one sample. -/
def DynamicRecord.samples (r : DynamicRecord) : Nat := r.ids.length

/-- DASamples: the sparse document-array sample structure
(support.cpp lines 461-646); the rank/select supports are functions of
the vectors and carry no separate content. -/
structure DASamples where
  sampled_records : List Bool
  bwt_ranges : SDVector
  sampled_offsets : SDVector
  array : List Nat
deriving Repr, DecidableEq, Inhabited

/-- Total number of BWT positions of the sampled records (the `offsets`
counter of the DASamples constructor, support.cpp lines 482-491). -/
def sampledTotal : List DynamicRecord → Nat
  | [] => 0
  | q :: rest => (if 0 < q.samples then q.size else 0) + sampledTotal rest

/-- The `range_builder.set(offset)` calls of the DASamples constructor
(support.cpp lines 498-510): the start offset of each sampled record in
the virtual concatenation of sampled records, starting at `base`. -/
def rangesPos : List DynamicRecord → Nat → List Nat
  | [], _ => []
  | q :: rest, base =>
    if 0 < q.samples then base :: rangesPos rest (base + q.size)
    else rangesPos rest base

/-- The `offset_builder.set(offset + sample.first)` calls of the
DASamples constructor (support.cpp lines 498-510). -/
def offsetsPos : List DynamicRecord → Nat → List Nat
  | [], _ => []
  | q :: rest, base =>
    if 0 < q.samples then
      q.ids.map (fun s => base + s.1) ++ offsetsPos rest (base + q.size)
    else offsetsPos rest base

/-- The sample-id array filling pass of the DASamples constructor
(support.cpp lines 517-525). -/
def samplesArr : List DynamicRecord → List Nat
  | [] => []
  | q :: rest =>
    if 0 < q.samples then q.ids.map Prod.snd ++ samplesArr rest
    else samplesArr rest

/-- DASamples::DASamples(bwt) (support.cpp lines 479-526). -/
def DASamples.build (bwt : List DynamicRecord) : DASamples :=
  { sampled_records := bwt.map (fun q => decide (0 < q.samples)),
    bwt_ranges := ⟨sampledTotal bwt, rangesPos bwt 0⟩,
    sampled_offsets := ⟨sampledTotal bwt, offsetsPos bwt 0⟩,
    array := samplesArr bwt }

/-- DASamples::tryLocate (support.cpp lines 635-646). -/
def DASamples.tryLocate (s : DASamples) (record off : Nat) : Nat :=
  if s.sampled_records.getD record false = false then invalid_sequence
  else
    let record_start := s.bwt_ranges.selectAt (rank1 s.sampled_records record + 1)
    if s.sampled_offsets.bitAt (record_start + off) then
      s.array.getD (s.sampled_offsets.rank (record_start + off)) 0
    else invalid_sequence

/-!
ByteCode and Run codecs.  Modelled from the spec: both codecs live in the
missing `support.h`; spec sections 4.1 and 4.2 give the encoding rules
(`RUN_CONTINUES = 256 / sigma` for `sigma > 0`; a run whose length fits
below `RUN_CONTINUES` is packed into one byte, otherwise a marker byte is
followed by the ByteCoded remainder).
-/

/-- Modelled from the spec: ByteCode::write for one value (spec 4.1):
7 payload bits per byte, high bit set while more bytes follow. -/
def byteCodeEnc (v : Nat) : List Nat :=
  if h : v < 128 then [v] else (v % 128 + 128) :: byteCodeEnc (v / 128)
termination_by v
decreasing_by
  exact Nat.div_lt_self (by omega) (by omega)

/-- Modelled from the spec: ByteCode::read (spec 4.1), returning the
value and the rest of the stream, or `none` on a truncated stream. -/
def byteCodeDec : List Nat → Option (Nat × List Nat)
  | [] => none
  | b :: rest =>
    if b < 128 then some (b, rest)
    else
      match byteCodeDec rest with
      | some (v, rest2) => some (b - 128 + v * 128, rest2)
      | none => none

/-- Modelled from the spec: Run::write for outdegree `sigma` (spec 4.2). -/
def runEnc (sigma : Nat) (run : Nat × Nat) : List Nat :=
  if run.2 < 256 / sigma then [run.1 * (256 / sigma) + run.2]
  else (run.1 * (256 / sigma) + (256 / sigma - 1))
    :: byteCodeEnc (run.2 - (256 / sigma - 1))

/-- Modelled from the spec: Run::read for outdegree `sigma` (spec 4.2). -/
def runDec (sigma : Nat) : List Nat → Option ((Nat × Nat) × List Nat)
  | [] => none
  | b :: rest =>
    if b % (256 / sigma) < 256 / sigma - 1 then
      some ((b / (256 / sigma), b % (256 / sigma)), rest)
    else
      match byteCodeDec rest with
      | some (v, rest2) => some ((b / (256 / sigma), (256 / sigma - 1) + v), rest2)
      | none => none

/-- Concatenated Run encodings of a sequence of runs. -/
def runsEnc (sigma : Nat) (runs : List (Nat × Nat)) : List Nat :=
  runs.foldr (fun r a => runEnc sigma r ++ a) []

/-- Decode `n` runs in order from a stream. -/
def runsDec (sigma : Nat) : Nat → List Nat → Option (List (Nat × Nat) × List Nat)
  | 0, l => some ([], l)
  | n + 1, l =>
    match runDec sigma l with
    | some (r, l2) =>
      match runsDec sigma n l2 with
      | some (rs, l3) => some (r :: rs, l3)
      | none => none
    | none => none

/-!
Serialization.  Modelled from the spec: the byte formats of the sdsl
primitives (`write_member`, `sd_vector`, `bit_vector`, `int_vector`) are
not part of this repository; the spec fixes only the serialization order
of the members (spec section 6) and the round-trip contract.  Each
primitive is modelled as a self-delimiting byte encoding: a 64-bit
little-endian word for scalars, a length-prefixed list of words for the
position list of a sparse vector and for the packed id array, one byte
per bit for a dense bitvector.  The rank/select supports are functions of
their vectors in this model and contribute no bytes.
-/

/-- A 64-bit scalar as 8 little-endian bytes (sdsl `write_member`). -/
def bytesOfU64 (n : Nat) : List Nat :=
  [n % 256, n / 256 % 256, n / 65536 % 256, n / 16777216 % 256,
   n / 4294967296 % 256, n / 1099511627776 % 256,
   n / 281474976710656 % 256, n / 72057594037927936 % 256]

/-- Read a 64-bit little-endian scalar (sdsl `read_member`). -/
def readU64 : List Nat → Option (Nat × List Nat)
  | b0 :: b1 :: b2 :: b3 :: b4 :: b5 :: b6 :: b7 :: rest =>
    some (b0 + 256 * (b1 + 256 * (b2 + 256 * (b3 + 256 *
      (b4 + 256 * (b5 + 256 * (b6 + 256 * b7)))))), rest)
  | _ => none

/-- A list of 64-bit scalars, in order. -/
def writeU64s (vs : List Nat) : List Nat := vs.foldr (fun v a => bytesOfU64 v ++ a) []

/-- Read `k` 64-bit scalars. -/
def readU64s : Nat → List Nat → Option (List Nat × List Nat)
  | 0, l => some ([], l)
  | k + 1, l =>
    match readU64 l with
    | some (v, l2) =>
      match readU64s k l2 with
      | some (vs, l3) => some (v :: vs, l3)
      | none => none
    | none => none

/-- Read `k` raw bytes (the data blob of RecordArray::load, which resizes
to `index.size()` and reads that many bytes). -/
def readBytes : Nat → List Nat → Option (List Nat × List Nat)
  | 0, l => some ([], l)
  | _ + 1, [] => none
  | k + 1, b :: l =>
    match readBytes k l with
    | some (bs, l2) => some (b :: bs, l2)
    | none => none

/-- A dense bitvector as one byte per bit. -/
def writeBits (bits : List Bool) : List Nat := bits.map (fun b => if b then 1 else 0)

/-- Read `k` bits stored one byte per bit. -/
def readBits (k : Nat) (l : List Nat) : Option (List Bool × List Nat) :=
  match readBytes k l with
  | some (bs, l2) => some (bs.map (fun b => b == 1), l2)
  | none => none

/-- Serialization of a sparse vector: domain size, number of set
positions, the positions. -/
def SDVector.serialize (v : SDVector) : List Nat :=
  bytesOfU64 v.size ++ bytesOfU64 v.ones.length ++ writeU64s v.ones

/-- Deserialization of a sparse vector. -/
def SDVector.load (l : List Nat) : Option (SDVector × List Nat) :=
  match readU64 l with
  | some (sz, l2) =>
    match readU64 l2 with
    | some (cnt, l3) =>
      match readU64s cnt l3 with
      | some (ones, l4) => some (⟨sz, ones⟩, l4)
      | none => none
    | none => none
  | none => none

/-- RecordArray (support.cpp lines 328-457): record count, the sparse
index bitvector over the data, and the concatenated record bytes. -/
structure RecordArray where
  records : Nat
  index : SDVector
  data : List Nat
deriving Repr, DecidableEq, Inhabited

/-- RecordArray::serialize (support.cpp lines 414-434): record count,
index (with its select support), then the raw data bytes. -/
def RecordArray.serialize (ra : RecordArray) : List Nat :=
  bytesOfU64 ra.records ++ ra.index.serialize ++ ra.data

/-- RecordArray::load (support.cpp lines 436-448): read the count and the
index, resize the data to `index.size()` and read that many bytes. -/
def RecordArray.load (l : List Nat) : Option (RecordArray × List Nat) :=
  match readU64 l with
  | some (recs, l2) =>
    match SDVector.load l2 with
    | some (idx, l3) =>
      match readBytes idx.size l3 with
      | some (data, l4) => some (⟨recs, idx, data⟩, l4)
      | none => none
    | none => none
  | none => none

/-- DASamples::serialize (support.cpp lines 574-593): the members in
declaration order, supports alongside their vectors. -/
def DASamples.serialize (s : DASamples) : List Nat :=
  bytesOfU64 s.sampled_records.length ++ writeBits s.sampled_records
    ++ s.bwt_ranges.serialize ++ s.sampled_offsets.serialize
    ++ bytesOfU64 s.array.length ++ writeU64s s.array

/-- DASamples::load (support.cpp lines 595-608). -/
def DASamples.load (l : List Nat) : Option (DASamples × List Nat) :=
  match readU64 l with
  | some (n, l2) =>
    match readBits n l2 with
    | some (sr, l3) =>
      match SDVector.load l3 with
      | some (br, l4) =>
        match SDVector.load l4 with
        | some (so, l5) =>
          match readU64 l5 with
          | some (m, l6) =>
            match readU64s m l6 with
            | some (arr, l7) => some (⟨sr, br, so, arr⟩, l7)
            | none => none
          | none => none
        | none => none
      | none => none
    | none => none
  | none => none

/-- Machine well-formedness of a sparse vector value: the stored scalars
fit in 64 bits. -/
def SDVector.wf (v : SDVector) : Prop :=
  v.size < U64 ∧ v.ones.length < U64 ∧ ∀ p ∈ v.ones, p < U64

instance (v : SDVector) : Decidable v.wf := by
  unfold SDVector.wf; infer_instance

/-- Class invariant of a RecordArray value: scalars fit in 64 bits, the
data holds bytes, and the index bitvector spans the data (as built by the
constructor, support.cpp line 376). -/
def RecordArray.wf (ra : RecordArray) : Prop :=
  ra.records < U64 ∧ ra.index.wf ∧ ra.data.length = ra.index.size ∧
    ∀ b ∈ ra.data, b < 256

instance (ra : RecordArray) : Decidable ra.wf := by
  unfold RecordArray.wf; infer_instance

/-- Machine well-formedness of a DASamples value. -/
def DASamples.wf (s : DASamples) : Prop :=
  s.sampled_records.length < U64 ∧ s.bwt_ranges.wf ∧ s.sampled_offsets.wf ∧
    s.array.length < U64 ∧ ∀ x ∈ s.array, x < U64

instance (s : DASamples) : Decidable s.wf := by
  unfold DASamples.wf; infer_instance

/-- tryLocate with the builder output generalised to an arbitrary base
offset of the virtual concatenation; `DASamples.build` followed by
`tryLocate` is this function at base 0. -/
def locGen (bwt : List DynamicRecord) (base record off : Nat) : Nat :=
  if (bwt.map (fun q => decide (0 < q.samples))).getD record false = false then
    invalid_sequence
  else if decide
      (((rangesPos bwt base).getD
          (rank1 (bwt.map (fun q => decide (0 < q.samples))) record) 0 + off)
        ∈ offsetsPos bwt base) then
    (samplesArr bwt).getD
      ((offsetsPos bwt base).countP (fun p => decide
        (p < (rangesPos bwt base).getD
          (rank1 (bwt.map (fun q => decide (0 < q.samples))) record) 0 + off))) 0
  else invalid_sequence

/-- The value promised by the claim for `tryLocate(record, offset)`: the
stored id of the sample with this offset when the record carries one, and
`invalid_sequence()` otherwise.  Transcribed from the claim, to be
compared with the embedding. -/
def locSpec (bwt : List DynamicRecord) (record off : Nat) : Nat :=
  match (bwt.getD record default).ids.find? (fun s => s.1 == off) with
  | some s => s.2
  | none => invalid_sequence

/-!
Concrete inputs used by the witness theorems.
-/

/-- A concrete record with sorted outgoing edges. -/
def rwA : DynamicRecord := ⟨4, [], [(3, 0), (5, 2)], [(0, 2), (1, 1), (0, 1)], []⟩

/-- A concrete record with unsorted outgoing edges. -/
def rwB : DynamicRecord := ⟨4, [], [(5, 2), (3, 0)], [(0, 2), (1, 1), (0, 1)], []⟩

/-- A concrete record with outgoing edges but an empty body. -/
def rwEmptyBody : DynamicRecord := ⟨2, [], [(3, 0)], [], []⟩

/-- A concrete record vector for the DASamples witness. -/
def bwtW : List DynamicRecord :=
  [⟨2, [], [], [], []⟩, ⟨5, [], [], [], [(0, 7), (3, 9)]⟩, ⟨3, [], [], [], [(1, 4)]⟩]

/-- A concrete RecordArray value for the round-trip witness. -/
def raW : RecordArray := ⟨2, ⟨3, [0, 2]⟩, [7, 8, 9]⟩

/-- A concrete DASamples value for the round-trip witness. -/
def dasW : DASamples := DASamples.build bwtW

/-- A concrete index header state: offset 2, alphabet size 6. -/
def gW : DynamicGBWT := ⟨⟨4, 1, 6, 2⟩, []⟩

/-!
Theorems.  Each claim of the specification is settled by one theorem
below; helper lemmas carry the loop invariants.
-/

theorem sumLens_nil : sumLens [] = 0 := rfl

theorem sumLens_cons (run : Nat × Nat) (rest : List (Nat × Nat)) :
    sumLens (run :: rest) = run.2 + sumLens rest := rfl

theorem sumLens_filter_le (p : Nat × Nat → Bool) (body : List (Nat × Nat)) :
    sumLens (body.filter p) ≤ sumLens body := by
  induction body with
  | nil => simp [sumLens]
  | cons run rest ih =>
    rw [List.filter_cons]
    by_cases h : p run = true
    · simp only [h, if_true, sumLens_cons]; omega
    · simp only [h]; rw [if_neg (by simp [h]), sumLens_cons]; omega

theorem totalRank_le_sumLens (rk : Nat) (body : List (Nat × Nat)) :
    totalRank rk body ≤ sumLens body := sumLens_filter_le _ body

theorem totalRank_cons (rk : Nat) (run : Nat × Nat) (rest : List (Nat × Nat)) :
    totalRank rk (run :: rest) =
      (if run.1 = rk then run.2 else 0) + totalRank rk rest := by
  unfold totalRank
  rw [List.filter_cons]
  by_cases h : run.1 = rk
  · simp [h, sumLens_cons]
  · simp [h]

/-- The loop of `LF(i, to)` past the end of the record: no break happens
except possibly with zero overshoot, and the target's accumulator ends at
the full per-rank total. -/
theorem lfToLoop_clamp (outrank i : Nat) :
    ∀ (body : List (Nat × Nat)) (res off : Nat), off + sumLens body ≤ i →
      lfToLoop outrank i body res off = res + totalRank outrank body := by
  intro body
  induction body with
  | nil => intro res off _; simp [lfToLoop, totalRank, sumLens]
  | cons run rest ih =>
    intro res off h
    rw [sumLens_cons] at h
    rw [lfToLoop, totalRank_cons]
    by_cases hbr : i ≤ off + run.2
    · have hoff : off + run.2 = i := by
        have := sumLens_cons run rest ▸ h; omega
      have hrest : sumLens rest = 0 := by omega
      have htr : totalRank outrank rest = 0 := by
        have := totalRank_le_sumLens outrank rest; omega
      rw [if_pos hbr]
      have hsub : off + run.2 - i = 0 := by omega
      by_cases hm : run.1 = outrank
      · simp [hm, hsub, htr]
      · simp [hm, htr]
    · rw [if_neg hbr]
      by_cases hm : run.1 = outrank
      · rw [if_pos hm, ih (res + run.2) (off + run.2) (by omega), if_pos hm]; omega
      · rw [if_neg hm, ih res (off + run.2) (by omega), if_neg hm]; omega

theorem bump_length : ∀ (l : List (Nat × Nat)) (k v : Nat), (bump l k v).length = l.length := by
  intro l
  induction l with
  | nil => intro k v; rfl
  | cons p rest ih =>
    intro k v
    match k with
    | 0 => rfl
    | k + 1 => simp [bump, ih k v]

theorem bump_getD : ∀ (l : List (Nat × Nat)) (k v j : Nat),
    (bump l k v).getD j (0, 0) =
      if j = k ∧ k < l.length then ((l.getD j (0, 0)).1, (l.getD j (0, 0)).2 + v)
      else l.getD j (0, 0) := by
  intro l
  induction l with
  | nil => intro k v j; simp [bump]
  | cons p rest ih =>
    intro k v j
    match k, j with
    | 0, 0 => simp [bump]
    | 0, j + 1 => simp [bump]
    | k + 1, 0 => simp [bump]
    | k + 1, j + 1 =>
      simp only [bump, List.getD_cons_succ, List.length_cons]
      rw [ih k v j]
      by_cases h : j = k ∧ k < rest.length
      · rw [if_pos h, if_pos ⟨by omega, by omega⟩]
      · rw [if_neg h, if_neg (by omega)]

theorem decodeBody_cons (run : Nat × Nat) (rest : List (Nat × Nat)) :
    decodeBody (run :: rest) = List.replicate run.2 run.1 ++ decodeBody rest := rfl

theorem decodeBody_length : ∀ body, (decodeBody body).length = sumLens body := by
  intro body
  induction body with
  | nil => rfl
  | cons run rest ih => simp [decodeBody_cons, sumLens_cons, ih]

theorem getD_replicate_self (a n j : Nat) (h : j < n) :
    (List.replicate n a).getD j 0 = a := by
  rw [List.getD_eq_getElem _ _ (by simpa using h)]
  exact List.getElem_replicate _ _

/-- Loop invariant of `DynamicRecord::LF(i)`: when `i` lies inside the
remaining runs, the loop breaks at the run covering `i`, returning its
out-rank as `last_edge`, an exit offset of at least `i`, and an
accumulator whose covering entry has gained exactly the weight of the
covered prefix plus the overshoot. -/
theorem lfLoop_spec : ∀ (body acc : List (Nat × Nat)) (i last0 off0 : Nat),
    (∀ run ∈ body, run.1 < acc.length) → off0 ≤ i → i < off0 + sumLens body →
    ((lfLoop i body acc last0 off0).2.1 = (decodeBody body).getD (i - off0) 0 ∧
     i ≤ (lfLoop i body acc last0 off0).2.2) ∧
    ((lfLoop i body acc last0 off0).1.getD ((decodeBody body).getD (i - off0) 0) (0, 0)).1
        = (acc.getD ((decodeBody body).getD (i - off0) 0) (0, 0)).1 ∧
    ((lfLoop i body acc last0 off0).1.getD ((decodeBody body).getD (i - off0) 0) (0, 0)).2
        = (acc.getD ((decodeBody body).getD (i - off0) 0) (0, 0)).2
          + ((decodeBody body).take (i - off0)).count ((decodeBody body).getD (i - off0) 0)
          + ((lfLoop i body acc last0 off0).2.2 - i) := by
  intro body
  induction body with
  | nil =>
    intro acc i last0 off0 _ h1 h2
    rw [sumLens_nil] at h2; omega
  | cons run rest ih =>
    intro acc i last0 off0 hrk h1 h2
    rw [sumLens_cons] at h2
    have hrk0 : run.1 < acc.length := hrk run (List.mem_cons_self _ _)
    by_cases hbr : i < off0 + run.2
    · have hlf : lfLoop i (run :: rest) acc last0 off0 =
          (bump acc run.1 run.2, run.1, off0 + run.2) := by
        simp [lfLoop, hbr]
      have hdec : (decodeBody (run :: rest)).getD (i - off0) 0 = run.1 := by
        rw [decodeBody_cons, List.getD_append _ _ _ _ (by simp; omega)]
        exact getD_replicate_self _ _ _ (by omega)
      have htake : ((decodeBody (run :: rest)).take (i - off0)).count run.1 = i - off0 := by
        rw [decodeBody_cons, List.take_append_of_le_length (by simp; omega),
          List.take_replicate, List.count_replicate]
        simp; omega
      rw [hlf, hdec]
      dsimp only
      refine ⟨⟨rfl, by omega⟩, ?_, ?_⟩
      · rw [bump_getD, if_pos ⟨rfl, hrk0⟩]
      · rw [bump_getD, if_pos ⟨rfl, hrk0⟩, htake]
        dsimp only
        omega
    · have hlf : lfLoop i (run :: rest) acc last0 off0 =
          lfLoop i rest (bump acc run.1 run.2) run.1 (off0 + run.2) := by
        simp [lfLoop, hbr]
      have hge : off0 + run.2 ≤ i := by omega
      have hdec : (decodeBody (run :: rest)).getD (i - off0) 0
          = (decodeBody rest).getD (i - (off0 + run.2)) 0 := by
        rw [decodeBody_cons, List.getD_append_right _ _ _ _ (by simp; omega)]
        congr 1
        simp; omega
      have ihh := ih (bump acc run.1 run.2) i run.1 (off0 + run.2)
        (fun q hq => by rw [bump_length]; exact hrk q (List.mem_cons_of_mem _ hq))
        hge (by omega)
      have hsplit : (decodeBody (run :: rest)).take (i - off0)
          = List.replicate run.2 run.1 ++ (decodeBody rest).take (i - (off0 + run.2)) := by
        rw [decodeBody_cons]
        have hidx : i - off0 = run.2 + (i - (off0 + run.2)) := by omega
        rw [hidx]
        have := @List.take_append _ (List.replicate run.2 run.1) (decodeBody rest)
          (i - (off0 + run.2))
        simpa using this
      obtain ⟨⟨e1, e2⟩, e3, e4⟩ := ihh
      rw [hlf, hdec]
      refine ⟨⟨e1, e2⟩, ?_, ?_⟩
      · rw [e3, bump_getD]
        by_cases h : (decodeBody rest).getD (i - (off0 + run.2)) 0 = run.1 ∧ run.1 < acc.length
        · rw [if_pos h]
        · rw [if_neg h]
      · have hcount : ((decodeBody (run :: rest)).take (i - off0)).count
            ((decodeBody rest).getD (i - (off0 + run.2)) 0)
            = (if run.1 = (decodeBody rest).getD (i - (off0 + run.2)) 0 then run.2 else 0)
              + ((decodeBody rest).take (i - (off0 + run.2))).count
                  ((decodeBody rest).getD (i - (off0 + run.2)) 0) := by
          rw [hsplit, List.count_append, List.count_replicate]
          simp only [beq_iff_eq]
        rw [e4, bump_getD, hcount]
        by_cases h : run.1 = (decodeBody rest).getD (i - (off0 + run.2)) 0
        · rw [if_pos ⟨h.symm, hrk0⟩, if_pos h]
          dsimp only
          omega
        · rw [if_neg (fun hc => h hc.1.symm), if_neg h]
          omega

/-- C1: for a record satisfying the record invariants, `LF(i)` returns
`invalid_edge()` when `i ≥ size()`, and otherwise the pair
(successor of the covering out-rank, its LF base plus the number of body
positions before `i` carrying that out-rank), as promised by the claim
(`lfSpecC1`). -/
theorem claim_C1_LF (r : DynamicRecord) (hsum : sumLens r.body = r.body_size)
    (hrk : ∀ run ∈ r.body, run.1 < r.outdegree) (i : Nat) :
    (r.size ≤ i → r.LF i = invalid_edge) ∧
    (i < r.size → r.LF i = lfSpecC1 r i) := by
  constructor
  · intro h
    unfold DynamicRecord.LF
    rw [if_pos h]
  · intro h
    have hne : ¬ (r.size ≤ i) := by omega
    have hrk2 : ∀ run ∈ r.body, run.1 < r.outgoing.length := by
      intro run hr
      have := hrk run hr
      unfold DynamicRecord.outdegree at this
      exact this
    have hii : i < 0 + sumLens r.body := by
      unfold DynamicRecord.size at h; omega
    have hmain := lfLoop_spec r.body r.outgoing i 0 0 hrk2 (Nat.zero_le _) hii
    simp only [Nat.sub_zero] at hmain
    obtain ⟨⟨e1, e2⟩, e3, e4⟩ := hmain
    simp only [DynamicRecord.LF, hne, if_false, lfSpecC1, Prod.mk.injEq]
    rw [e1]
    constructor
    · rw [e3]
      rfl
    · rw [e4]
      unfold DynamicRecord.offsetAt offsetOf
      omega

theorem claim_C1_LF_witness :
    (rwA.size ≤ 3 → rwA.LF 3 = invalid_edge) ∧
    (3 < rwA.size → rwA.LF 3 = lfSpecC1 rwA 3) :=
  claim_C1_LF rwA (by decide) (by decide) 3

theorem sortedChk_iff (out : List (Nat × Nat)) :
    sortedChk out = true ↔ List.Chain' (· ≤ ·) (out.map Prod.fst) := by
  induction out with
  | nil => simp [sortedChk]
  | cons a rest ih =>
    cases rest with
    | nil => simp [sortedChk]
    | cons b rest2 =>
      rw [List.map_cons, List.map_cons, List.chain'_cons]
      rw [show sortedChk (a :: b :: rest2) = if b.1 < a.1 then false else sortedChk (b :: rest2)
        from rfl]
      by_cases h : b.1 < a.1
      · rw [if_pos h]
        constructor
        · intro hh; exact absurd hh (by simp)
        · rintro ⟨hab, _⟩; omega
      · rw [if_neg h, ih, List.map_cons]
        constructor
        · intro hh; exact ⟨by omega, hh⟩
        · rintro ⟨_, hh⟩; exact hh

theorem successorOf_edgeToOf (out : List (Nat × Nat)) (s : Nat)
    (h : s ∈ out.map Prod.fst) : successorOf out (edgeToOf out s) = s := by
  unfold successorOf edgeToOf
  have hex : ∃ e ∈ out, (fun e : Nat × Nat => e.1 == s) e = true := by
    obtain ⟨e, he, heq⟩ := List.mem_map.mp h
    exact ⟨e, he, by simp [heq]⟩
  have hlt := List.findIdx_lt_length_of_exists hex
  rw [List.getD_eq_getElem _ _ hlt]
  have := @List.findIdx_getElem _ (fun e : Nat × Nat => e.1 == s) out hlt
  simpa using this

theorem opLoop_map (out out2 : List (Nat × Nat)) (g : Nat → Nat) (i : Nat) :
    ∀ (body : List (Nat × Nat)) (off : Nat),
      (∀ run ∈ body, successorOf out2 (g run.1) = successorOf out run.1) →
      opLoop out2 i (body.map (fun run => (g run.1, run.2))) off = opLoop out i body off := by
  intro body
  induction body with
  | nil => intro off _; rfl
  | cons run rest ih =>
    intro off hg
    rw [List.map_cons]
    simp only [opLoop]
    by_cases h : i < off + run.2
    · rw [if_pos h, if_pos h]
      exact hg run (List.mem_cons_self _ _)
    · rw [if_neg h, if_neg h]
      exact ih (off + run.2) (fun q hq => hg q (List.mem_cons_of_mem _ hq))

/-- C4: for a non-empty record with pairwise distinct successors and
in-range body out-ranks, `recode()` is a no-op when `outgoing` is already
sorted by successor, and otherwise leaves the successors strictly
increasing while keeping `operator[]` pointwise unchanged below
`size()`. -/
theorem claim_C4_recode (r : DynamicRecord) (hne : r.size ≠ 0)
    (hnd : (r.outgoing.map Prod.fst).Nodup)
    (hrk : ∀ run ∈ r.body, run.1 < r.outdegree) :
    (List.Chain' (· ≤ ·) (r.outgoing.map Prod.fst) → r.recode = r) ∧
    (¬ List.Chain' (· ≤ ·) (r.outgoing.map Prod.fst) →
      List.Pairwise (· < ·) (r.recode.outgoing.map Prod.fst) ∧
      ∀ i, i < r.size → r.recode.elemAt i = r.elemAt i) := by
  constructor
  · intro hch
    unfold DynamicRecord.recode
    rw [if_neg hne, if_pos ((sortedChk_iff r.outgoing).mpr hch)]
  · intro hch
    have hchk : sortedChk r.outgoing = false := by
      rcases Bool.eq_false_or_eq_true (sortedChk r.outgoing) with h | h
      · exact absurd ((sortedChk_iff r.outgoing).mp h) hch
      · exact h
    have hrec : r.recode = { r with
        outgoing := List.insertionSort lexLe r.outgoing,
        body := (r.body.map (fun run => (r.successor run.1, run.2))).map
          (fun run => (edgeToOf (List.insertionSort lexLe r.outgoing) run.1, run.2)) } := by
      unfold DynamicRecord.recode
      rw [if_neg hne, hchk]
      simp only [Bool.false_eq_true, if_false]
    have hperm : (List.insertionSort lexLe r.outgoing).Perm r.outgoing :=
      List.perm_insertionSort lexLe r.outgoing
    constructor
    · rw [hrec]
      have hsorted : List.Pairwise lexLe (List.insertionSort lexLe r.outgoing) :=
        List.sorted_insertionSort lexLe r.outgoing
      have hnd2 : ((List.insertionSort lexLe r.outgoing).map Prod.fst).Nodup :=
        ((hperm.map Prod.fst).nodup_iff).mpr hnd
      have hndp : List.Pairwise (fun a b : Nat × Nat => a.1 ≠ b.1)
          (List.insertionSort lexLe r.outgoing) := List.pairwise_map.mp hnd2
      have hlt : List.Pairwise (fun a b : Nat × Nat => a.1 < b.1)
          (List.insertionSort lexLe r.outgoing) := by
        refine (hsorted.and hndp).imp ?_
        intro a b hab
        rcases hab with ⟨hle, hne2⟩
        unfold lexLe at hle
        omega
      exact List.pairwise_map.mpr hlt
    · intro i hi
      rw [hrec]
      unfold DynamicRecord.elemAt
      dsimp only
      have hni : ¬ (r.body_size ≤ i) := by
        unfold DynamicRecord.size at hi; omega
      rw [if_neg (by unfold DynamicRecord.size; exact hni),
        if_neg (by unfold DynamicRecord.size; exact hni), List.map_map]
      refine opLoop_map r.outgoing (List.insertionSort lexLe r.outgoing)
        (fun rk => edgeToOf (List.insertionSort lexLe r.outgoing) (r.successor rk))
        i r.body 0 ?_
      intro run hrun
      apply successorOf_edgeToOf
      have hlt := hrk run hrun
      unfold DynamicRecord.outdegree at hlt
      have hmem : successorOf r.outgoing run.1 ∈ r.outgoing.map Prod.fst := by
        unfold successorOf
        rw [List.getD_eq_getElem _ _ hlt]
        exact List.mem_map_of_mem _ (List.getElem_mem _)
      exact ((hperm.map Prod.fst).mem_iff).mpr hmem

theorem claim_C4_recode_witness :
    List.Pairwise (· < ·) (rwB.recode.outgoing.map Prod.fst) ∧
    ∀ i, i < rwB.size → rwB.recode.elemAt i = rwB.elemAt i :=
  (claim_C4_recode rwB (by decide) (by decide) (by decide)).2 (by
    rw [show List.map Prod.fst rwB.outgoing = [5, 3] from rfl, List.chain'_cons]
    intro hch
    exact absurd hch.1 (by omega))

/-- C8: for a record satisfying the record invariants and a successor
target `tgt` with out-rank `rk`, an out-of-range index `i ≥ size()` makes
`LF(i, tgt)` return `offset(rk)` plus the total length of the runs with
out-rank `rk` — positions are clamped to the end of the record instead of
being reported with `invalid_offset()`. -/
theorem claim_C8_LFto_clamps (r : DynamicRecord) (hsum : sumLens r.body = r.body_size)
    (_hrk : ∀ run ∈ r.body, run.1 < r.outdegree) (tgt rk : Nat)
    (h1 : r.edgeTo tgt = rk) (h2 : rk < r.outdegree) (i : Nat) (hi : r.size ≤ i) :
    r.LFto i tgt = r.offsetAt rk + totalRank rk r.body := by
  unfold DynamicRecord.LFto
  rw [h1, if_neg (by omega)]
  exact lfToLoop_clamp rk i r.body (r.offsetAt rk) 0
    (by unfold DynamicRecord.size at hi; omega)

theorem claim_C8_LFto_clamps_witness :
    rwA.LFto 5 3 = rwA.offsetAt 0 + totalRank 0 rwA.body :=
  claim_C8_LFto_clamps rwA (by decide) (by decide) 3 0 (by decide) (by decide) 5 (by decide)

/-- C6: when `tgt` is not among the successors of a record
(`edgeTo(tgt) == outdegree()`), `LF(i, tgt)` returns `invalid_offset()`
for every `i` and `LF(range, tgt)` returns the empty range for every
range; furthermore `LF(range, tgt2)` returns the empty range for every
empty input range regardless of the target. -/
theorem claim_C6_missing_target (r : DynamicRecord) (tgt : Nat)
    (h : r.edgeTo tgt = r.outdegree) :
    (∀ i, r.LFto i tgt = invalid_offset) ∧
    (∀ rng, r.LFrange rng tgt = some Range.empty_range) ∧
    (∀ rng tgt2, Range.empty rng = true → r.LFrange rng tgt2 = some Range.empty_range) := by
  refine ⟨?_, ?_, ?_⟩
  · intro i
    unfold DynamicRecord.LFto
    rw [h, if_pos (Nat.le_refl _)]
  · intro rng
    unfold DynamicRecord.LFrange
    by_cases he : Range.empty rng = true
    · rw [if_pos he]
    · rw [if_neg he, h, if_pos (Nat.le_refl _)]
  · intro rng tgt2 he
    unfold DynamicRecord.LFrange
    rw [if_pos he]

theorem claim_C6_missing_target_witness :
    (∀ i, rwA.LFto i 7 = invalid_offset) ∧
    (∀ rng, rwA.LFrange rng 7 = some Range.empty_range) ∧
    (∀ rng tgt2, Range.empty rng = true → rwA.LFrange rng tgt2 = some Range.empty_range) :=
  claim_C6_missing_target rwA 7 (by decide)

/-- C9: `LF(range, to)` dereferences `body.begin()` before any emptiness
check on the body; when every record with outgoing edges has a non-empty
body the access is in bounds (the embedding never returns `none`), and a
record with outgoing edges but an empty body reaches the out-of-bounds
access on any non-empty range whose target is a successor. -/
theorem claim_C9_body_deref :
    (∀ (r : DynamicRecord) (rng : Nat × Nat) (tgt : Nat),
      (r.outgoing ≠ [] → r.body ≠ []) → (r.LFrange rng tgt).isSome = true) ∧
    (∀ (r : DynamicRecord) (rng : Nat × Nat) (tgt : Nat),
      r.outgoing ≠ [] → r.body = [] → Range.empty rng = false →
      r.edgeTo tgt < r.outdegree → r.LFrange rng tgt = none) := by
  constructor
  · intro r rng tgt h
    unfold DynamicRecord.LFrange
    by_cases he : Range.empty rng = true
    · rw [if_pos he]; rfl
    · rw [if_neg he]
      by_cases hd : r.outdegree ≤ r.edgeTo tgt
      · rw [if_pos hd]; rfl
      · rw [if_neg hd]
        have hout : r.outgoing ≠ [] := by
          intro hnil
          have : r.outdegree = 0 := by
            unfold DynamicRecord.outdegree; rw [hnil]; rfl
          omega
        have hbody := h hout
        match hb : r.body with
        | [] => exact absurd hb hbody
        | run0 :: rest0 => simp
  · intro r rng tgt hout hbody he hlt
    unfold DynamicRecord.LFrange
    rw [if_neg (by simp [he]), if_neg (by omega), hbody]

theorem claim_C9_body_deref_witness :
    (rwA.LFrange (0, 1) 3).isSome = true ∧ rwEmptyBody.LFrange (0, 1) 3 = none :=
  ⟨claim_C9_body_deref.1 rwA (0, 1) 3 (by intro _; decide),
   claim_C9_body_deref.2 rwEmptyBody (0, 1) 3 (by decide) (by decide) (by decide) (by decide)⟩

/-- C3: `contains(n)` accepts exactly `n = 0` and the ids in
`[offset + 1, alphabet_size)`; in particular the boundary id
`offset + 1` is contained whenever it is below the alphabet size. -/
theorem claim_C3_contains (g : DynamicGBWT) (n : Nat) :
    (g.contains n = true ↔ (n = 0 ∨ (g.header.offset + 1 ≤ n ∧ n < g.sigma))) ∧
    (g.header.offset + 1 < g.sigma → g.contains (g.header.offset + 1) = true) := by
  constructor
  · unfold DynamicGBWT.contains
    simp only [Bool.or_eq_true, Bool.and_eq_true, decide_eq_true_eq, beq_iff_eq]
    omega
  · intro h
    unfold DynamicGBWT.contains
    simp only [Bool.or_eq_true, Bool.and_eq_true, decide_eq_true_eq, beq_iff_eq]
    omega

theorem claim_C3_contains_witness :
    (gW.contains 3 = true ↔ (3 = 0 ∨ (gW.header.offset + 1 ≤ 3 ∧ 3 < gW.sigma))) ∧
    gW.contains (gW.header.offset + 1) = true :=
  ⟨(claim_C3_contains gW 3).1, (claim_C3_contains gW 3).2 (by decide)⟩

/-- C10: `Range::empty(first, second)` holds exactly when
`first + 1 > second + 1` computed modulo `2^64`; consequently a range with
second component `invalid_offset()` is empty whenever the first component
differs from `invalid_offset()`, the range
`(invalid_offset(), invalid_offset())` is not empty, and
`Range::empty(Range::empty_range())` holds. -/
theorem claim_C10_range_empty :
    (∀ sp ep, sp < U64 → ep < U64 →
      (Range.emptyFS sp ep = true ↔ (ep + 1) % U64 < (sp + 1) % U64)) ∧
    (∀ sp, sp < U64 → sp ≠ invalid_offset → Range.emptyFS sp invalid_offset = true) ∧
    Range.emptyFS invalid_offset invalid_offset = false ∧
    Range.empty Range.empty_range = true := by
  refine ⟨?_, ?_, ?_, ?_⟩
  · intro sp ep _ _
    unfold Range.emptyFS
    exact decide_eq_true_iff
  · intro sp hlt hne
    unfold Range.emptyFS invalid_offset U64 at *
    rw [decide_eq_true_iff]
    have h1 : (2 ^ 64 - 1 + 1) % 2 ^ 64 = 0 := by norm_num
    have h2 : (sp + 1) % 2 ^ 64 = sp + 1 := Nat.mod_eq_of_lt (by omega)
    omega
  · decide
  · decide

theorem claim_C10_range_empty_witness :
    (Range.emptyFS 1 0 = true ↔ (0 + 1) % U64 < (1 + 1) % U64) ∧
    Range.emptyFS 5 invalid_offset = true :=
  ⟨claim_C10_range_empty.1 1 0 (by unfold U64; norm_num) (by unfold U64; norm_num),
   claim_C10_range_empty.2.1 5 (by unfold U64; norm_num) (by decide)⟩

theorem rank1_zero (bits : List Bool) : rank1 bits 0 = 0 := rfl

theorem rank1_cons_succ (b : Bool) (bits : List Bool) (k : Nat) :
    rank1 (b :: bits) (k + 1) = (if b = true then 1 else 0) + rank1 bits k := by
  unfold rank1
  rw [List.take_succ_cons, List.count_cons]
  cases b <;> simp [Nat.add_comm]

theorem sampled_getD : ∀ (l : List DynamicRecord) (k : Nat),
    (l.map (fun q => decide (0 < q.samples))).getD k false
      = decide (0 < (l.getD k default).samples) := by
  intro l
  induction l with
  | nil =>
    intro k
    simp [List.getD_nil, DynamicRecord.samples]
    rfl
  | cons q rest ih =>
    intro k
    cases k with
    | zero => rfl
    | succ k => rw [List.map_cons, List.getD_cons_succ, List.getD_cons_succ, ih]

theorem rangesPos_ge : ∀ (bwt : List DynamicRecord) (base : Nat),
    ∀ p ∈ rangesPos bwt base, base ≤ p := by
  intro bwt
  induction bwt with
  | nil => intro base p hp; simp [rangesPos] at hp
  | cons q rest ih =>
    intro base p hp
    by_cases hs : 0 < q.samples
    · rw [rangesPos, if_pos hs] at hp
      rcases List.mem_cons.mp hp with h | h
      · omega
      · have := ih (base + q.size) p h; omega
    · rw [rangesPos, if_neg hs] at hp
      exact ih base p hp

theorem offsetsPos_ge : ∀ (bwt : List DynamicRecord) (base : Nat),
    ∀ p ∈ offsetsPos bwt base, base ≤ p := by
  intro bwt
  induction bwt with
  | nil => intro base p hp; simp [offsetsPos] at hp
  | cons q rest ih =>
    intro base p hp
    by_cases hs : 0 < q.samples
    · rw [offsetsPos, if_pos hs] at hp
      rcases List.mem_append.mp hp with h | h
      · obtain ⟨s, _, rfl⟩ := List.mem_map.mp h
        omega
      · have := ih (base + q.size) p h; omega
    · rw [offsetsPos, if_neg hs] at hp
      exact ih base p hp

theorem rangesPos_length : ∀ (bwt : List DynamicRecord) (base : Nat),
    (rangesPos bwt base).length = bwt.countP (fun q => decide (0 < q.samples)) := by
  intro bwt
  induction bwt with
  | nil => intro base; rfl
  | cons q rest ih =>
    intro base
    rw [List.countP_cons]
    by_cases hs : 0 < q.samples
    · rw [rangesPos, if_pos hs, List.length_cons, ih, if_pos (by simpa using hs)]
    · rw [rangesPos, if_neg hs, ih, if_neg (by simpa using hs)]
      omega

theorem rank1_lt_of_sampled : ∀ (bwt : List DynamicRecord) (k : Nat),
    k < bwt.length → 0 < (bwt.getD k default).samples →
    rank1 (bwt.map (fun q => decide (0 < q.samples))) k
      < bwt.countP (fun q => decide (0 < q.samples)) := by
  intro bwt
  induction bwt with
  | nil => intro k hk; simp at hk
  | cons q rest ih =>
    intro k hk hsamp
    rw [List.countP_cons]
    cases k with
    | zero =>
      rw [List.getD_cons_zero] at hsamp
      rw [List.map_cons, rank1_zero, if_pos (by simpa using hsamp)]
      omega
    | succ k =>
      rw [List.getD_cons_succ] at hsamp
      rw [List.map_cons, rank1_cons_succ]
      have hih := ih k (by simp at hk; omega) hsamp
      by_cases hs : 0 < q.samples
      · rw [if_pos (by simpa using hs)]
        omega
      · rw [if_neg (by simpa using hs)]
        omega

/-- The stored id found by a membership hit inside one record chunk:
with strictly increasing sample offsets, the rank of the hit position
inside the chunk indexes exactly the matching sample. -/
theorem chunk_value : ∀ (ids : List (Nat × Nat)) (tail : List Nat) (base off : Nat)
    (s : Nat × Nat),
    List.Pairwise (fun a b : Nat × Nat => a.1 < b.1) ids →
    ids.find? (fun q => q.1 == off) = some s →
    (ids.map Prod.snd ++ tail).getD
      ((ids.map (fun q => base + q.1)).countP (fun p => decide (p < base + off))) 0
      = s.2 := by
  intro ids
  induction ids with
  | nil => intro tail base off s _ hf; cases hf
  | cons s0 rest ih =>
    intro tail base off s hp hf
    obtain ⟨hhead, htail⟩ := List.pairwise_cons.mp hp
    rw [List.find?_cons] at hf
    rw [List.map_cons, List.map_cons, List.countP_cons]
    cases hb : (s0.1 == off) with
    | true =>
      rw [hb] at hf
      have hs : s0 = s := by simpa using hf
      have hoff : s0.1 = off := by simpa using hb
      have h0 : (decide (base + s0.1 < base + off)) = false := by
        rw [decide_eq_false_iff_not]; omega
      have hrest : (rest.map (fun q => base + q.1)).countP
          (fun p => decide (p < base + off)) = 0 := by
        rw [List.countP_eq_zero]
        intro p hpm
        obtain ⟨q, hq, rfl⟩ := List.mem_map.mp hpm
        have := hhead q hq
        rw [decide_eq_true_eq]
        omega
      subst hs
      rw [hrest, h0]
      simp
    | false =>
      rw [hb] at hf
      have hne : s0.1 ≠ off := by simpa using hb
      have hmem := List.mem_of_find?_eq_some hf
      have hs1 : s.1 = off := by simpa using List.find?_some hf
      have hlt0 : s0.1 < off := by
        have := hhead s hmem; omega
      have h1 : (decide (base + s0.1 < base + off)) = true := by
        rw [decide_eq_true_eq]; omega
      rw [h1, if_pos rfl, List.cons_append, List.getD_cons_succ]
      exact ih tail base off s htail hf

/-- Generalised correctness of `tryLocate` over the builder output. -/
theorem locGen_eq_locSpec : ∀ (bwt : List DynamicRecord) (record base off : Nat),
    (∀ q ∈ bwt, List.Pairwise (fun a b : Nat × Nat => a.1 < b.1) q.ids ∧
      ∀ s ∈ q.ids, s.1 < q.size) →
    record < bwt.length →
    off < (bwt.getD record default).size →
    locGen bwt base record off = locSpec bwt record off := by
  intro bwt
  induction bwt with
  | nil => intro record base off _ h _; simp at h
  | cons q0 rest ih =>
    intro record base off hinv hrec hoff
    obtain ⟨hq0p, hq0s⟩ := hinv q0 (List.mem_cons_self _ _)
    have hinvr := fun q hq => hinv q (List.mem_cons_of_mem _ hq)
    by_cases hs0 : 0 < q0.samples
    · cases record with
      | zero =>
        have hoff0 : off < q0.size := by rwa [List.getD_cons_zero] at hoff
        unfold locGen locSpec
        rw [List.map_cons, List.getD_cons_zero, List.getD_cons_zero,
          decide_eq_true hs0, if_neg (by simp), rank1_zero]
        simp only [rangesPos, offsetsPos, samplesArr, if_pos hs0]
        rw [List.getD_cons_zero]
        have hnot : (base + off) ∉ offsetsPos rest (base + q0.size) := by
          intro hm
          have := offsetsPos_ge rest (base + q0.size) _ hm
          omega
        cases hfind : q0.ids.find? (fun s => s.1 == off) with
        | none =>
          rw [List.find?_eq_none] at hfind
          have hnc : (base + off) ∉ q0.ids.map (fun s => base + s.1) := by
            intro hm
            obtain ⟨s, hs, he⟩ := List.mem_map.mp hm
            exact hfind s hs (by simp; omega)
          have hboth : (base + off) ∉
              q0.ids.map (fun s => base + s.1) ++ offsetsPos rest (base + q0.size) := by
            rw [List.mem_append]
            rintro (h | h)
            · exact hnc h
            · exact hnot h
          rw [if_neg (by rw [decide_eq_true_eq]; exact hboth)]
        | some s =>
          have hs1 : s.1 = off := by simpa using List.find?_some hfind
          have hmem0 : (base + off) ∈ q0.ids.map (fun s => base + s.1) :=
            List.mem_map.mpr ⟨s, List.mem_of_find?_eq_some hfind, by omega⟩
          rw [if_pos (by rw [decide_eq_true_eq]; exact List.mem_append.mpr (Or.inl hmem0))]
          rw [List.countP_append]
          have hz : (offsetsPos rest (base + q0.size)).countP
              (fun p => decide (p < base + off)) = 0 := by
            rw [List.countP_eq_zero]
            intro p hpm
            have := offsetsPos_ge rest (base + q0.size) p hpm
            rw [decide_eq_true_eq]
            omega
          rw [hz, Nat.add_zero]
          exact chunk_value q0.ids (samplesArr rest) base off s hq0p hfind
      | succ k =>
        have hkrest : k < rest.length := by simp at hrec; omega
        have hoffr : off < (rest.getD k default).size := by
          rwa [List.getD_cons_succ] at hoff
        have hrhs : locSpec (q0 :: rest) (k + 1) off = locSpec rest k off := by
          unfold locSpec
          rw [List.getD_cons_succ]
        by_cases hsk : 0 < (rest.getD k default).samples
        · have hcond : (rest.map (fun q => decide (0 < q.samples))).getD k false = true := by
            rw [sampled_getD]
            simpa using hsk
          unfold locGen
          rw [List.map_cons, List.getD_cons_succ, hcond, if_neg (by simp),
            rank1_cons_succ, decide_eq_true hs0, if_pos rfl]
          simp only [rangesPos, offsetsPos, samplesArr, if_pos hs0]
          rw [show (1 + rank1 (rest.map (fun q => decide (0 < q.samples))) k)
              = rank1 (rest.map (fun q => decide (0 < q.samples))) k + 1 from by omega,
            List.getD_cons_succ]
          have hjlt : rank1 (rest.map (fun q => decide (0 < q.samples))) k
              < (rangesPos rest (base + q0.size)).length := by
            rw [rangesPos_length]
            exact rank1_lt_of_sampled rest k hkrest hsk
          have hge : base + q0.size ≤ (rangesPos rest (base + q0.size)).getD
              (rank1 (rest.map (fun q => decide (0 < q.samples))) k) 0 := by
            apply rangesPos_ge
            rw [List.getD_eq_getElem _ _ hjlt]
            exact List.getElem_mem _
          rw [hrhs, ← ih k (base + q0.size) off hinvr hkrest hoffr]
          unfold locGen
          rw [hcond, if_neg (show ¬(true = false) by simp)]
          have hchunk_not : ∀ p ∈ q0.ids.map (fun s => base + s.1),
              p < base + q0.size := by
            intro p hm
            obtain ⟨s, hs, rfl⟩ := List.mem_map.mp hm
            have := hq0s s hs
            omega
          have hdec : decide (((rangesPos rest (base + q0.size)).getD
                (rank1 (rest.map (fun q => decide (0 < q.samples))) k) 0 + off)
              ∈ q0.ids.map (fun s => base + s.1) ++ offsetsPos rest (base + q0.size))
              = decide (((rangesPos rest (base + q0.size)).getD
                (rank1 (rest.map (fun q => decide (0 < q.samples))) k) 0 + off)
              ∈ offsetsPos rest (base + q0.size)) := by
            rw [decide_eq_decide, List.mem_append]
            constructor
            · rintro (h | h)
              · have := hchunk_not _ h; omega
              · exact h
            · intro h; exact Or.inr h
          rw [hdec]
          by_cases hm : ((rangesPos rest (base + q0.size)).getD
              (rank1 (rest.map (fun q => decide (0 < q.samples))) k) 0 + off)
              ∈ offsetsPos rest (base + q0.size)
          · rw [if_pos (by rwa [decide_eq_true_eq]), if_pos (by rwa [decide_eq_true_eq])]
            rw [List.countP_append]
            have hcnt : (q0.ids.map (fun s => base + s.1)).countP
                (fun p => decide (p < (rangesPos rest (base + q0.size)).getD
                  (rank1 (rest.map (fun q => decide (0 < q.samples))) k) 0 + off))
                = q0.ids.length := by
              have hall : ∀ p ∈ q0.ids.map (fun s => base + s.1),
                  decide (p < (rangesPos rest (base + q0.size)).getD
                    (rank1 (rest.map (fun q => decide (0 < q.samples))) k) 0 + off)
                    = true := by
                intro p hp
                rw [decide_eq_true_eq]
                have := hchunk_not p hp
                omega
              rw [List.countP_eq_length.mpr hall, List.length_map]
            have hlen : (q0.ids.map Prod.snd).length ≤ q0.ids.length +
                (offsetsPos rest (base + q0.size)).countP
                  (fun p => decide (p < (rangesPos rest (base + q0.size)).getD
                    (rank1 (rest.map (fun q => decide (0 < q.samples))) k) 0 + off)) := by
              rw [List.length_map]
              omega
            rw [hcnt, List.getD_append_right _ _ _ _ hlen]
            rw [List.length_map, Nat.add_sub_cancel_left]
          · rw [if_neg (by rw [decide_eq_true_eq]; exact hm),
              if_neg (by rw [decide_eq_true_eq]; exact hm)]
        · have hcond : (rest.map (fun q => decide (0 < q.samples))).getD k false = false := by
            rw [sampled_getD]
            simpa using hsk
          unfold locGen
          rw [List.map_cons, List.getD_cons_succ, hcond, if_pos rfl, hrhs]
          unfold locSpec
          have hids : (rest.getD k default).ids = [] := by
            unfold DynamicRecord.samples at hsk
            have hz : (rest.getD k default).ids.length = 0 := by omega
            exact List.length_eq_zero.mp hz
          rw [hids]
          rfl
    · have hb : (decide (0 < q0.samples)) = false := decide_eq_false hs0
      cases record with
      | zero =>
        unfold locGen locSpec
        rw [List.map_cons, List.getD_cons_zero, hb, if_pos rfl, List.getD_cons_zero]
        have hids : q0.ids = [] := by
          unfold DynamicRecord.samples at hs0
          exact List.length_eq_zero.mp (by omega)
        rw [hids]
        rfl
      | succ k =>
        have hkrest : k < rest.length := by simp at hrec; omega
        have hoffr : off < (rest.getD k default).size := by
          rwa [List.getD_cons_succ] at hoff
        have hrhs : locSpec (q0 :: rest) (k + 1) off = locSpec rest k off := by
          unfold locSpec
          rw [List.getD_cons_succ]
        unfold locGen
        rw [List.map_cons, List.getD_cons_succ, rank1_cons_succ, hb]
        simp only [rangesPos, offsetsPos, samplesArr, if_neg hs0]
        rw [if_neg (show ¬(false = true) by simp), Nat.zero_add]
        rw [hrhs, ← ih k base off hinvr hkrest hoffr]
        unfold locGen
        rfl

/-- C5: on a DASamples built from a vector of records whose sample lists
have strictly increasing in-range offsets, `tryLocate(record, offset)`
returns the stored id of the sample at `offset` when the record has one,
and `invalid_sequence()` otherwise; it never returns an id for an
unsampled position. -/
theorem claim_C5_tryLocate (bwt : List DynamicRecord)
    (hinv : ∀ q ∈ bwt, List.Pairwise (fun a b : Nat × Nat => a.1 < b.1) q.ids ∧
      ∀ s ∈ q.ids, s.1 < q.size)
    (record off : Nat) (hrec : record < bwt.length)
    (hoff : off < (bwt.getD record default).size) :
    (DASamples.build bwt).tryLocate record off =
      match (bwt.getD record default).ids.find? (fun s => s.1 == off) with
      | some s => s.2
      | none => invalid_sequence := by
  have h0 : (DASamples.build bwt).tryLocate record off = locGen bwt 0 record off := rfl
  rw [h0, locGen_eq_locSpec bwt record 0 off hinv hrec hoff]
  rfl

theorem claim_C5_tryLocate_witness :
    (DASamples.build bwtW).tryLocate 1 3 =
      match (bwtW.getD 1 default).ids.find? (fun s => s.1 == 3) with
      | some s => s.2
      | none => invalid_sequence :=
  claim_C5_tryLocate bwtW (by decide) 1 3 (by decide) (by decide)

theorem byteCodeDec_enc : ∀ (v : Nat) (rest : List Nat),
    byteCodeDec (byteCodeEnc v ++ rest) = some (v, rest) := by
  intro v
  induction v using Nat.strong_induction_on with
  | _ v ih =>
    intro rest
    unfold byteCodeEnc
    by_cases h : v < 128
    · rw [dif_pos h]
      simp [byteCodeDec, h]
    · rw [dif_neg h, List.cons_append]
      simp only [byteCodeDec]
      rw [if_neg (by omega), ih (v / 128) (Nat.div_lt_self (by omega) (by omega)) rest]
      dsimp only
      have hval : v % 128 + 128 - 128 + v / 128 * 128 = v := by omega
      rw [hval]

theorem runDec_enc (sigma : Nat) (h1 : 0 < sigma) (h2 : sigma ≤ 256)
    (rk len : Nat) (_hrk : rk < sigma) (_hlen : 1 ≤ len)
    (hne : len ≠ 256 / sigma - 1) (rest : List Nat) :
    runDec sigma (runEnc sigma (rk, len) ++ rest) = some ((rk, len), rest) := by
  have hrc : 1 ≤ 256 / sigma := (Nat.one_le_div_iff h1).mpr h2
  unfold runEnc
  dsimp only
  by_cases hcase : len < 256 / sigma
  · rw [if_pos hcase, List.cons_append, List.nil_append]
    simp only [runDec]
    have hmod : (rk * (256 / sigma) + len) % (256 / sigma) = len := by
      rw [Nat.mul_comm, Nat.mul_add_mod]
      exact Nat.mod_eq_of_lt hcase
    have hdiv : (rk * (256 / sigma) + len) / (256 / sigma) = rk := by
      rw [Nat.mul_comm, Nat.mul_add_div (by omega), Nat.div_eq_of_lt hcase]
      omega
    rw [hmod, hdiv, if_pos (by omega)]
  · rw [if_neg hcase, List.cons_append]
    simp only [runDec]
    have hmod : (rk * (256 / sigma) + (256 / sigma - 1)) % (256 / sigma)
        = 256 / sigma - 1 := by
      rw [Nat.mul_comm, Nat.mul_add_mod]
      exact Nat.mod_eq_of_lt (by omega)
    have hdiv : (rk * (256 / sigma) + (256 / sigma - 1)) / (256 / sigma) = rk := by
      rw [Nat.mul_comm, Nat.mul_add_div (by omega), Nat.div_eq_of_lt (by omega)]
      omega
    rw [hmod, hdiv, if_neg (by omega), byteCodeDec_enc]
    dsimp only
    have hval : 256 / sigma - 1 + (len - (256 / sigma - 1)) = len := by omega
    rw [hval]

theorem runsDec_enc (sigma : Nat) (h1 : 0 < sigma) (h2 : sigma ≤ 256) :
    ∀ (runs : List (Nat × Nat)),
      (∀ r ∈ runs, r.1 < sigma ∧ 1 ≤ r.2 ∧ r.2 ≠ 256 / sigma - 1) →
      ∀ rest, runsDec sigma runs.length (runsEnc sigma runs ++ rest) = some (runs, rest) := by
  intro runs
  induction runs with
  | nil => intro _ rest; rfl
  | cons r rs ih =>
    intro hall rest
    obtain ⟨ha, hb, hc⟩ := hall r (List.mem_cons_self _ _)
    have henc : runsEnc sigma (r :: rs) = runEnc sigma r ++ runsEnc sigma rs := rfl
    rw [henc, List.append_assoc, List.length_cons]
    simp only [runsDec]
    have hr : runEnc sigma r = runEnc sigma (r.1, r.2) := rfl
    rw [hr, runDec_enc sigma h1 h2 r.1 r.2 ha hb hc]
    dsimp only
    rw [ih (fun q hq => hall q (List.mem_cons_of_mem _ hq)) rest]

/-- C7 counterexample: with the write and read rules exactly as stated,
the codec is not a round trip.  At outdegree 2 the single-byte encoding
of the run (0, 127) has short length `RUN_CONTINUES - 1`, which read
treats as a continuation marker, so decoding fails; and at outdegree 257
(`RUN_CONTINUES = 0`) the encodings of (1, 1) and (2, 1) coincide, so no
decoder can recover both. -/
theorem claim_C7_counterexample :
    runDec 2 (runEnc 2 (0, 127)) ≠ some ((0, 127), []) ∧
    runEnc 257 (1, 1) = runEnc 257 (2, 1) ∧ ((1, 1) : Nat × Nat) ≠ (2, 1) := by
  refine ⟨?_, ?_, by decide⟩
  · have he : runEnc 2 (0, 127) = [127] := by norm_num [runEnc]
    rw [he]
    have hd : runDec 2 [127] = none := by norm_num [runDec, byteCodeDec]
    rw [hd]
    simp
  · have e1 : runEnc 257 (1, 1) = [0, 1] := by
      norm_num [runEnc]
      unfold byteCodeEnc
      norm_num
    have e2 : runEnc 257 (2, 1) = [0, 1] := by
      norm_num [runEnc]
      unfold byteCodeEnc
      norm_num
    rw [e1, e2]

/-- C7 as amended: for outdegrees `0 < sigma ≤ 256` and runs whose length
is at least 1 and differs from `RUN_CONTINUES - 1`, decoding the encoding
yields the run back, and a concatenation of encodings decodes in order to
the original sequence.  (The claim as stated fails at length
`RUN_CONTINUES - 1` and at `sigma > 256`, see the counterexample.) -/
theorem claim_C7_run_codec (sigma : Nat) (h1 : 0 < sigma) (h2 : sigma ≤ 256) :
    (∀ rk len rest, rk < sigma → 1 ≤ len → len ≠ 256 / sigma - 1 →
      runDec sigma (runEnc sigma (rk, len) ++ rest) = some ((rk, len), rest)) ∧
    (∀ runs : List (Nat × Nat),
      (∀ r ∈ runs, r.1 < sigma ∧ 1 ≤ r.2 ∧ r.2 ≠ 256 / sigma - 1) →
      runsDec sigma runs.length (runsEnc sigma runs) = some (runs, [])) := by
  constructor
  · intro rk len rest hrk hlen hne
    exact runDec_enc sigma h1 h2 rk len hrk hlen hne rest
  · intro runs hall
    have := runsDec_enc sigma h1 h2 runs hall []
    rwa [List.append_nil] at this

theorem claim_C7_run_codec_witness :
    runDec 4 (runEnc 4 (1, 100) ++ []) = some ((1, 100), []) ∧
    runsDec 4 ([((1 : Nat), (100 : Nat)), (2, 3)] : List (Nat × Nat)).length
      (runsEnc 4 [(1, 100), (2, 3)]) = some ([(1, 100), (2, 3)], []) :=
  ⟨(claim_C7_run_codec 4 (by decide) (by decide)).1 1 100 [] (by decide) (by decide)
      (by decide),
   (claim_C7_run_codec 4 (by decide) (by decide)).2 [(1, 100), (2, 3)] (by decide)⟩

theorem readU64_bytesOfU64 (n : Nat) (h : n < U64) (rest : List Nat) :
    readU64 (bytesOfU64 n ++ rest) = some (n, rest) := by
  unfold U64 at h
  unfold bytesOfU64
  simp only [List.cons_append, List.nil_append, readU64, Option.some.injEq,
    Prod.mk.injEq, and_true]
  omega

theorem readBytes_exact : ∀ (data rest : List Nat),
    readBytes data.length (data ++ rest) = some (data, rest) := by
  intro data
  induction data with
  | nil => intro rest; rfl
  | cons b bs ih =>
    intro rest
    rw [List.cons_append, List.length_cons]
    simp only [readBytes]
    rw [ih rest]

theorem readU64s_writeU64s : ∀ (vs : List Nat), (∀ v ∈ vs, v < U64) →
    ∀ rest, readU64s vs.length (writeU64s vs ++ rest) = some (vs, rest) := by
  intro vs
  induction vs with
  | nil => intro _ rest; rfl
  | cons v vs ih =>
    intro hall rest
    have henc : writeU64s (v :: vs) = bytesOfU64 v ++ writeU64s vs := rfl
    rw [henc, List.append_assoc, List.length_cons]
    simp only [readU64s, readU64_bytesOfU64 v (hall v (List.mem_cons_self _ _)),
      ih (fun q hq => hall q (List.mem_cons_of_mem _ hq)) rest]

theorem readBits_writeBits (bits : List Bool) (rest : List Nat) :
    readBits bits.length (writeBits bits ++ rest) = some (bits, rest) := by
  unfold readBits writeBits
  have hlen : bits.length = (bits.map (fun b => if b then (1 : Nat) else 0)).length :=
    (List.length_map _ _).symm
  rw [hlen, readBytes_exact]
  dsimp only
  rw [List.map_map]
  rw [show ((fun b : Nat => b == 1) ∘ (fun b : Bool => if b then (1 : Nat) else 0)) = id
    from by funext b; cases b <;> rfl]
  rw [List.map_id]

theorem sdv_load_serialize (v : SDVector) (h : v.wf) (rest : List Nat) :
    SDVector.load (v.serialize ++ rest) = some (v, rest) := by
  obtain ⟨h1, h2, h3⟩ := h
  unfold SDVector.serialize SDVector.load
  simp only [List.append_assoc, readU64_bytesOfU64 v.size h1,
    readU64_bytesOfU64 v.ones.length h2, readU64s_writeU64s v.ones h3 rest]

theorem ra_load_serialize (ra : RecordArray) (h : ra.wf) (rest : List Nat) :
    RecordArray.load (ra.serialize ++ rest) = some (ra, rest) := by
  obtain ⟨h1, hidx, hdata, _⟩ := h
  unfold RecordArray.serialize RecordArray.load
  simp only [List.append_assoc, readU64_bytesOfU64 ra.records h1,
    sdv_load_serialize ra.index hidx, ← hdata, readBytes_exact]

theorem das_load_serialize (s : DASamples) (h : s.wf) (rest : List Nat) :
    DASamples.load (s.serialize ++ rest) = some (s, rest) := by
  obtain ⟨h1, hbr, hso, h4, h5⟩ := h
  unfold DASamples.serialize DASamples.load
  simp only [List.append_assoc, readU64_bytesOfU64 s.sampled_records.length h1,
    readBits_writeBits s.sampled_records, sdv_load_serialize s.bwt_ranges hbr,
    sdv_load_serialize s.sampled_offsets hso,
    readU64_bytesOfU64 s.array.length h4, readU64s_writeU64s s.array h5 rest]

/-- C2: loading the byte stream produced by serialize yields the original
value, for RecordArray and DASamples values satisfying their class
invariants (scalars fit in 64 bits, data bytes, index spanning the data);
consequently every query on the loaded value answers as on the
original. -/
theorem claim_C2_round_trip (ra : RecordArray) (hra : ra.wf)
    (das : DASamples) (hdas : das.wf) :
    RecordArray.load ra.serialize = some (ra, []) ∧
    DASamples.load das.serialize = some (das, []) ∧
    ∀ record off, (DASamples.load das.serialize).map (fun p => p.1.tryLocate record off)
      = some (das.tryLocate record off) := by
  have h1 := ra_load_serialize ra hra []
  rw [List.append_nil] at h1
  have h2 := das_load_serialize das hdas []
  rw [List.append_nil] at h2
  refine ⟨h1, h2, fun record off => ?_⟩
  rw [h2]
  rfl

theorem claim_C2_round_trip_witness :
    RecordArray.load raW.serialize = some (raW, []) ∧
    DASamples.load dasW.serialize = some (dasW, []) ∧
    ∀ record off, (DASamples.load dasW.serialize).map (fun p => p.1.tryLocate record off)
      = some (dasW.tryLocate record off) :=
  claim_C2_round_trip raW (by decide) dasW (by decide)

end GBWT
